import Mathlib

/-!
Shallow embedding of the filetemp program's two core subsystems:
the argument schema and validation engine (`src/program_args/mod.rs`)
and the persistent option-cache text format (`src/config_file/mod.rs`).
Rust strings are modelled as `List Char`; the cache-file buffer is a
`List Char` and the `str::lines` iteration of the reader is modelled by
`rustLines`.  Error values keep the exact message text built by the
source (including its spacing quirks).
-/

namespace Filetemp

/-- Option name reserved by the save path (`"save-as"` in the source). -/
def saveAsName : List Char := "save-as".data

/-- Option name reserved by the load path (`"use"` in the source). -/
def useName : List Char := "use".data

/-- The reserved pseudo-option `"file_type"` of the cache format. -/
def fileTypeName : List Char := "file_type".data

/-- The token `"cmake"` used by `FileType::match_type` and `to_str`. -/
def cmakeToken : List Char := "cmake".data

/-- The token `"unknown"` returned by `FileType::to_str` for `Unknown`. -/
def unknownToken : List Char := "unknown".data

/-- The literal value stored for a supplied flag (`String::from("true")`). -/
def trueMarker : List Char := "true".data

/-- ASCII lower-casing of a single character, as done byte-wise by Rust's
`eq_ignore_ascii_case`. -/
def asciiLower (c : Char) : Char :=
  if 'A' ≤ c ∧ c ≤ 'Z' then Char.ofNat (c.toNat + 32) else c

/-- Model of `FileType` from `src/file_types/mod.rs`. -/
inductive FileType where
  | CMake
  | Unknown
  deriving DecidableEq

/-- Model of `FileType::match_type`: case-insensitive comparison against `"cmake"`. -/
def FileType.match_type (name : List Char) : FileType :=
  if name.map asciiLower = cmakeToken then FileType.CMake else FileType.Unknown

/-- Model of `FileType::to_str`. -/
def FileType.to_str : FileType → List Char
  | FileType.CMake => cmakeToken
  | FileType.Unknown => unknownToken

/-- Model of `ArgPair` from `src/program_args/mod.rs`: one (option name, content) pair. -/
structure ArgPair where
  arg : List Char
  content : List Char
  deriving DecidableEq

/-- Model of `ArgCache` from `src/config_file/mod.rs`: one named option bundle. -/
structure ArgCache where
  file_type : FileType
  cache_name : List Char
  args : List ArgPair
  deriving DecidableEq

/-- Model of `ArgCache::new()`. -/
def ArgCache.new : ArgCache := ⟨FileType.Unknown, [], []⟩

/-- Model of `LineResult` from `src/config_file/mod.rs`. -/
inductive LineResult where
  | CacheName (name : List Char)
  | FileTy (ty : FileType)
  | ArgItem (arg : List Char) (content : List Char)
  | ParseError (msg : String)
  | Discard
  deriving DecidableEq

/-- The `line_err!` macro of `parse_line`: note the source's `concat!` puts
no space between the message and `"at line"`. -/
def lineErr (msg : String) (lineNum : Nat) : String :=
  "Argument cache parse error: " ++ msg ++ "at line " ++ toString lineNum

/-- Message fragment used for a leading colon. -/
def emptyNameMsg : String := "Having empty argument name"

/-- Message fragment used for a trailing colon. -/
def emptyContentMsg : String := "Having empty argument content"

/-- Message fragment used for a header without closing bracket. -/
def missingBracketMsg : String := "Missing ]"

/-- Message fragment used for an `[]` header. -/
def emptyCacheNameMsg : String := "Having empty cache name"

/-- The invalid-argument-name error of `parse_line`. -/
def invalidNameMsg (arg : List Char) (lineNum : Nat) : String :=
  "Argument parse error: Having invalid argument name \"" ++ String.mk arg
    ++ "\" at line " ++ toString lineNum

/-- The file-type-not-specified error of `ConfigReader::read_from_config`. -/
def ftNotSpecified (name : List Char) : String :=
  "Argument cache parse error: File type not specified for cache \""
    ++ String.mk name ++ "\""

/-- The invalid-file-type error of `ConfigReader::read_from_config`. -/
def invalidFileTyMsg (name : List Char) : String :=
  "Argument cache parse error: Invalid file type for cache \""
    ++ String.mk name ++ "\""

/-- The error for an option item outside a section. -/
def invalidContentMsg (line : List Char) : String :=
  "Invalid content in config cache file: \"" ++ String.mk line ++ "\""

/-- Split a line at its first colon, mirroring the forward scan of
`parse_line`: `none` when the line has no colon. -/
def splitColon : List Char → Option (List Char × List Char)
  | [] => none
  | c :: rest =>
    if c = ':' then some ([], rest)
    else
      match splitColon rest with
      | some (a, b) => some (c :: a, b)
      | none => none

/-- The section-header branch of `parse_line` (first character was `[`):
`rest` is the line with the leading `[` removed. -/
def parseHeader (lineNum : Nat) (rest : List Char) : LineResult :=
  if rest.getLast? = some ']' then
    if rest.dropLast = [] then LineResult.ParseError (lineErr emptyCacheNameMsg lineNum)
    else LineResult.CacheName rest.dropLast
  else LineResult.ParseError (lineErr missingBracketMsg lineNum)

/-- The option-item lookup of `parse_line`: the scan over `valid_args`,
then the `file_type` check, then the invalid-name error. -/
def classifyArg (valid : List (List Char)) (lineNum : Nat) (arg content : List Char) :
    LineResult :=
  if arg ∈ valid then
    if arg = saveAsName ∨ arg = useName then LineResult.Discard
    else LineResult.ArgItem arg content
  else if arg = fileTypeName then LineResult.FileTy (FileType.match_type content)
  else LineResult.ParseError (invalidNameMsg arg lineNum)

/-- Model of `parse_line` from `src/config_file/mod.rs`.  A line whose first
character is `[` is a header candidate; otherwise the line is split at
its first colon (a line without a colon behaves as the source does:
empty name, whole line as content). -/
def parse_line (valid : List (List Char)) (lineNum : Nat) (line : List Char) :
    LineResult :=
  if line.head? = some '[' then parseHeader lineNum line.tail
  else
    match splitColon line with
    | some ([], _) => LineResult.ParseError (lineErr emptyNameMsg lineNum)
    | some (_ :: _, []) => LineResult.ParseError (lineErr emptyContentMsg lineNum)
    | some (a :: ar, c :: cr) => classifyArg valid lineNum (a :: ar) (c :: cr)
    | none => classifyArg valid lineNum [] line

/-- Split a character buffer at every `'\n'`; always returns at least one
(possibly empty) segment, like `str::split('\n')`. -/
def splitOnNl : List Char → List (List Char)
  | [] => [[]]
  | c :: rest =>
    if c = '\n' then [] :: splitOnNl rest
    else (c :: (splitOnNl rest).headI) :: (splitOnNl rest).tail

/-- Strip one trailing carriage return, as `str::lines` does per line. -/
def stripCR (l : List Char) : List Char :=
  if l.getLast? = some '\r' then l.dropLast else l

/-- Rust's `str::lines`: split at `'\n'`, drop the segment after a final
newline, strip one trailing `'\r'` from each line. -/
def rustLines (s : List Char) : List (List Char) :=
  (if (splitOnNl s).getLast? = some [] then (splitOnNl s).dropLast
   else splitOnNl s).map stripCR

/-- The line loop of `ConfigReader::read_from_config`, with the running
line index of `enumerate`, the accumulating `current_cache`, the
`parsing_cache` flag, and the committed caches; the `[]` case is the
code after the loop. -/
def readLines (valid : List (List Char)) :
    Nat → ArgCache → Bool → List ArgCache → List (List Char) →
    Except String (List ArgCache)
  | _, cur, parsing, acc, [] =>
    if parsing then
      if cur.file_type = FileType.Unknown then Except.error (ftNotSpecified cur.cache_name)
      else Except.ok (acc ++ [cur])
    else Except.ok acc
  | idx, cur, parsing, acc, line :: rest =>
    if line = [] ∧ parsing = true then
      if cur.file_type = FileType.Unknown then Except.error (ftNotSpecified cur.cache_name)
      else readLines valid (idx + 1) ArgCache.new false (acc ++ [cur]) rest
    else
      match parse_line valid idx line with
      | LineResult.ParseError e => Except.error e
      | LineResult.CacheName n =>
        readLines valid (idx + 1) { cur with cache_name := n } true acc rest
      | LineResult.ArgItem a ct =>
        if parsing then
          readLines valid (idx + 1) { cur with args := cur.args ++ [⟨a, ct⟩] } parsing acc rest
        else Except.error (invalidContentMsg line)
      | LineResult.FileTy ty =>
        if ty = FileType.Unknown then Except.error (invalidFileTyMsg cur.cache_name)
        else readLines valid (idx + 1) { cur with file_type := ty } parsing acc rest
      | LineResult.Discard => readLines valid (idx + 1) cur parsing acc rest

/-- Model of `ConfigReader::read_from_config`, with the file contents passed as a
buffer. -/
def read_from_config (valid : List (List Char)) (buf : List Char) :
    Except String (List ArgCache) :=
  readLines valid 0 ArgCache.new false [] (rustLines buf)

/-- The platform line ending used by `ConfigWriter::write_to_config`
(`LineEnding::from_current_platform()`, `LF` on this host). -/
def lineEnd : List Char := ['\n']

/-- Model of `ConfigWriter::write_to_config`: the text buffer it writes for a
collection, one `[name]` line, one `file_type:` line, one line per
option pair, and a closing blank line per bundle. -/
def write_to_config (caches : List ArgCache) : List Char :=
  (caches.map (fun item =>
    '[' :: (item.cache_name ++ ']' :: lineEnd)
      ++ fileTypeName ++ ':' :: (FileType.to_str item.file_type ++ lineEnd)
      ++ (item.args.map (fun p => p.arg ++ ':' :: (p.content ++ lineEnd))).flatten
      ++ lineEnd)).flatten

/-- Model of `Arg` from `src/program_args/mod.rs`: one option definition. -/
structure Arg where
  name : List Char
  is_flag : Bool
  is_required : Bool
  has_default_value : Bool
  default_value : List Char
  deriving DecidableEq

/-- Model of `Arg::new`. -/
def Arg.new (n : List Char) : Arg := ⟨n, false, false, false, []⟩

/-- Model of `Arg::flag`. -/
def Arg.flag (a : Arg) (f : Bool) : Arg := { a with is_flag := f }

/-- Model of `Arg::required`. -/
def Arg.required (a : Arg) (r : Bool) : Arg := { a with is_required := r }

/-- Model of `Arg::default_val`. -/
def Arg.default_val (a : Arg) (v : List Char) : Arg :=
  { a with default_value := v, has_default_value := true }

/-- Model of `ArgGroup`: an option definition plus its mutable `found` marker. -/
structure ArgGroup where
  definition : Arg
  found : Bool
  deriving DecidableEq

/-- Model of `ArgGroup::new`. -/
def ArgGroup.new (a : Arg) : ArgGroup := ⟨a, false⟩

/-- Model of `CommandArg`, with `groups` modelling the chained iteration
`defined_args[file_type].iter().chain(general_args.iter())` used by every
operation (type-scoped entries first, then general entries), and
`arg_map` modelling the `HashMap` as an association list with unique
keys (lookup takes the first matching key). -/
structure CommandArg where
  file_type : FileType
  groups : List ArgGroup
  arg_map : List (List Char × List Char)
  deriving DecidableEq

/-- Association-list lookup (first matching key wins). -/
def mapLookup : List (List Char × List Char) → List Char → Option (List Char)
  | [], _ => none
  | (k', v') :: rest, k => if k' = k then some v' else mapLookup rest k

/-- Model of `HashMap::entry(..).or_insert(..)`: insert only when the key is absent. -/
def orInsert (m : List (List Char × List Char)) (k v : List Char) :
    List (List Char × List Char) :=
  match mapLookup m k with
  | some _ => m
  | none => m ++ [(k, v)]

/-- Model of `HashMap::insert`: overwrite the value when the key is present. -/
def mapInsert : List (List Char × List Char) → List Char → List Char →
    List (List Char × List Char)
  | [], k, v => [(k, v)]
  | (k', v') :: rest, k, v =>
    if k' = k then (k, v) :: rest else (k', v') :: mapInsert rest k v

/-- Model of `verify_arg`: the token must start with `--` and have at least one
further character; the rest must equal the definition's name. -/
def verify_arg (arg : List Char) (valid : List Char) : Bool :=
  match arg with
  | '-' :: '-' :: rest => rest ≠ [] && rest = valid
  | _ => false

/-- Find the first group matching a token (the source's `for valid_arg in
valid_args.iter_mut().chain(..)` with `break`), returning the groups with
that entry's `found` set, plus the matched definition. -/
def matchFirst : List ArgGroup → List Char → Option (List ArgGroup × Arg)
  | [], _ => none
  | g :: gs, t =>
    if verify_arg t g.definition.name then some ({ g with found := true } :: gs, g.definition)
    else
      match matchFirst gs t with
      | some (gs', d) => some (g :: gs', d)
      | none => none

/-- Model of `ArgProcessErr` from `src/program_args/mod.rs`. -/
inductive ArgProcessErr where
  | PrintedHelp
  | InvalidArg (s : List Char)
  | InvalidFileType (s : List Char)
  | MissingArg (s : List Char)
  deriving DecidableEq

/-- The token loop of `CommandArg::process_arg_impl`, threading the
`found_arg`/`arg_ref` pair and the mutated groups and map. -/
def processLoop (map : List (List Char × List Char)) (found_arg : Bool)
    (arg_ref : List Char) (groups : List ArgGroup) :
    List (List Char) → Except ArgProcessErr (List ArgGroup × List (List Char × List Char))
  | [] => Except.ok (groups, map)
  | t :: rest =>
    if found_arg then processLoop (orInsert map arg_ref t) false arg_ref groups rest
    else
      match matchFirst groups t with
      | none => Except.error (ArgProcessErr.InvalidArg t)
      | some (groups', d) =>
        if d.is_flag then processLoop (orInsert map d.name trueMarker) false arg_ref groups' rest
        else processLoop map true d.name groups' rest

/-- Model of `CommandArg::process_arg_impl`. -/
def CommandArg.process_arg_impl (c : CommandArg) (tokens : List (List Char)) :
    Except ArgProcessErr CommandArg :=
  match processLoop c.arg_map false [] c.groups tokens with
  | Except.ok (gs, m) => Except.ok { c with groups := gs, arg_map := m }
  | Except.error e => Except.error e

/-- Model of `CommandArg::insert_arg_if_absent`: `or_insert` into the map and mark
every definition with that name as found. -/
def CommandArg.insert_arg_if_absent (c : CommandArg) (arg content : List Char) :
    CommandArg :=
  { c with
    arg_map := orInsert c.arg_map arg content,
    groups := c.groups.map (fun g =>
      if g.definition.name = arg then { g with found := true } else g) }

/-- The separator written between missing names. -/
def commaSep : List Char := ", ".data

/-- The entry loop of `CommandArg::assert_required_args_exist`, threading
the map, the `missing_args` flag and the accumulated `missing_msg`. -/
def assertLoop (map : List (List Char × List Char)) (missing_args : Bool)
    (missing_msg : List Char) :
    List ArgGroup → List (List Char × List Char) × Bool × List Char
  | [] => (map, missing_args, missing_msg)
  | g :: gs =>
    if g.found then assertLoop map missing_args missing_msg gs
    else if g.definition.is_required then
      assertLoop map true
        ((if missing_args then missing_msg ++ commaSep else missing_msg)
          ++ g.definition.name) gs
    else if g.definition.has_default_value then
      assertLoop (mapInsert map g.definition.name g.definition.default_value)
        missing_args missing_msg gs
    else assertLoop map missing_args missing_msg gs

/-- Model of `CommandArg::assert_required_args_exist`: returns the mutated state
(defaults filled in) together with the aggregated missing-argument error
when any required entry was not supplied. -/
def CommandArg.assert_required_args_exist (c : CommandArg) :
    CommandArg × Option ArgProcessErr :=
  let r := assertLoop c.arg_map false [] c.groups
  ({ c with arg_map := r.1 }, if r.2.1 then some (ArgProcessErr.MissingArg r.2.2) else none)

/-- Model of `CommandArg::extract_args`: every pair of the map, as `ArgPair`s. -/
def CommandArg.extract_args (c : CommandArg) : List ArgPair :=
  c.arg_map.map (fun kv => ⟨kv.1, kv.2⟩)

/-- The bundle built by `write_arg_cache` in `src/main.rs` when `save-as`
is present: the saving name, the current file type, and every pair of
the supplied-option map. -/
def write_arg_cache_bundle (cmd : CommandArg) : Option ArgCache :=
  match mapLookup cmd.arg_map saveAsName with
  | none => none
  | some n => some ⟨cmd.file_type, n, cmd.extract_args⟩

/-- The names of required-but-unsupplied entries, in iteration order. -/
def missingOf (groups : List ArgGroup) : List (List Char) :=
  (groups.filter (fun g => !g.found && g.definition.is_required)).map
    (fun g => g.definition.name)

/-- Comma-joining as produced by the `missing_msg` accumulation. -/
def joinComma : List (List Char) → List Char
  | [] => []
  | x :: xs => x ++ (xs.map (fun n => commaSep ++ n)).flatten

/-- Well-formedness of one option pair of a bundle, relative to a
valid-name set: the name is non-empty, does not look like a header or
contain separator characters, is a valid non-reserved name, and the
content is non-empty, newline-free and does not end in a carriage
return. -/
def WFPair (valid : List (List Char)) (p : ArgPair) : Prop :=
  p.arg ≠ [] ∧ p.arg.head? ≠ some '[' ∧ ']' ∉ p.arg ∧ ':' ∉ p.arg ∧ '\n' ∉ p.arg
    ∧ p.arg ∈ valid ∧ p.arg ≠ saveAsName ∧ p.arg ≠ useName ∧ p.arg ≠ fileTypeName
    ∧ p.content ≠ [] ∧ '\n' ∉ p.content ∧ p.content.getLast? ≠ some '\r'

/-- Well-formedness of one bundle: non-empty separator-free cache name,
known file type, and well-formed option pairs. -/
def WFCache (valid : List (List Char)) (c : ArgCache) : Prop :=
  c.cache_name ≠ [] ∧ ']' ∉ c.cache_name ∧ ':' ∉ c.cache_name ∧ '\n' ∉ c.cache_name
    ∧ c.file_type ≠ FileType.Unknown ∧ ∀ p ∈ c.args, WFPair valid p

/-- The lines the writer emits for one bundle, in order. -/
def bundleLines (c : ArgCache) : List (List Char) :=
  ('[' :: (c.cache_name ++ [']']))
    :: (fileTypeName ++ ':' :: FileType.to_str c.file_type)
    :: (c.args.map (fun p => p.arg ++ ':' :: p.content) ++ [([] : List Char)])

/-- Join lines with the platform line ending. -/
def joinNl (ls : List (List Char)) : List Char :=
  (ls.map (fun l => l ++ lineEnd)).flatten

/-- Registry/option names and values used by the concrete instances. -/
def versionName : List Char := "version".data

def projName : List Char := "proj".data

def mainLangName : List Char := "main-lang".data

def showName : List Char := "show".data

def pathName : List Char := "path".data

def xName : List Char := "x".data

def aName : List Char := "a".data

def bName : List Char := "b".data

def cVal : List Char := "c".data

def cxxVal : List Char := "cxx".data

def dVal : List Char := "d".data

def vVal : List Char := "v".data

def demoVal : List Char := "demo".data

def demo2Val : List Char := "demo2".data

def dotVal : List Char := ".".data

def fooVal : List Char := "foo".data

def oldVal : List Char := "old".data

def verTok : List Char := "--version".data

def verVal : List Char := "3.10".data

def showTok : List Char := "--show".data

def pathTok : List Char := "--path".data

def xTok : List Char := "--x".data

def saveAsTok : List Char := "--save-as".data

def useTok : List Char := "--use".data

/-- The schema of claims C4 and C5:
`{version: required, main-lang: default cxx, show: flag}`. -/
def c45groups : List ArgGroup :=
  [ArgGroup.new ((Arg.new versionName).required true),
   ArgGroup.new ((Arg.new mainLangName).default_val cxxVal),
   ArgGroup.new ((Arg.new showName).flag true)]

/-- The fresh registry state for claims C4 and C5. -/
def c45cmd : CommandArg := ⟨FileType.CMake, c45groups, []⟩

/-- The token sequence of claim C4. -/
def c4tokens : List (List Char) := [verTok, verVal, showTok]

/-- The matcher state after the C4 tokens. -/
def c4after : CommandArg :=
  ⟨FileType.CMake,
   [⟨(Arg.new versionName).required true, true⟩,
    ⟨(Arg.new mainLangName).default_val cxxVal, false⟩,
    ⟨(Arg.new showName).flag true, true⟩],
   [(versionName, verVal), (showName, trueMarker)]⟩

/-- The matcher state after the C5 tokens (only `--show`). -/
def c5after : CommandArg :=
  ⟨FileType.CMake,
   [⟨(Arg.new versionName).required true, false⟩,
    ⟨(Arg.new mainLangName).default_val cxxVal, false⟩,
    ⟨(Arg.new showName).flag true, true⟩],
   [(showName, trueMarker)]⟩

/-- A registry defining the same name twice (the source performs no
uniqueness check at definition time): a plain `x` followed by an `x`
with a default value. -/
def c2groups : List ArgGroup :=
  [ArgGroup.new (Arg.new xName),
   ArgGroup.new ((Arg.new xName).default_val dVal)]

/-- The fresh state for the C2 counterexample. -/
def c2cmd : CommandArg := ⟨FileType.CMake, c2groups, []⟩

/-- The state after processing `--x v` on `c2cmd`: the first `x` entry
is marked found, the map holds `x ↦ v`. -/
def c2mid : CommandArg :=
  ⟨FileType.CMake,
   [⟨Arg.new xName, true⟩, ArgGroup.new ((Arg.new xName).default_val dVal)],
   [(xName, vVal)]⟩

/-- Valid-name set and collection for the C1 counterexample: one bundle
with an empty option content. -/
def c1valid : List (List Char) := [projName]

def c1caches : List ArgCache := [⟨FileType.CMake, aName, [⟨projName, []⟩]⟩]

/-- Valid-name set and collection for the C1 witness. -/
def wValid : List (List Char) := [projName, pathName]

def wCaches : List ArgCache :=
  [⟨FileType.CMake, aName, [⟨projName, demoVal⟩]⟩,
   ⟨FileType.CMake, bName, [⟨projName, demo2Val⟩, ⟨pathName, dotVal⟩]⟩]

/-- Registry for the C7 counterexample: `save-as` and `use` defined as
general options, as `define_args` does. -/
def c7groups : List ArgGroup :=
  [ArgGroup.new (Arg.new saveAsName), ArgGroup.new (Arg.new useName)]

def c7cmd : CommandArg := ⟨FileType.CMake, c7groups, []⟩

def c7tokens : List (List Char) := [saveAsTok, fooVal, useTok, oldVal]

/-- The state after processing `--save-as foo --use old`. -/
def c7mid : CommandArg :=
  ⟨FileType.CMake,
   [⟨Arg.new saveAsName, true⟩, ⟨Arg.new useName, true⟩],
   [(saveAsName, fooVal), (useName, oldVal)]⟩

/-- Registry, tokens and final state for the C8 counterexample: `path`
supplied twice, the second time followed by an option-shaped token. -/
def c8groups : List ArgGroup := [ArgGroup.new (Arg.new pathName)]

def c8cmd : CommandArg := ⟨FileType.CMake, c8groups, []⟩

def c8tokens : List (List Char) := [pathTok, aName, pathTok, showTok]

def c8after : CommandArg :=
  ⟨FileType.CMake, [⟨Arg.new pathName, true⟩], [(pathName, aName)]⟩

/-- Registry for the C8 witness run: `path` supplied once, followed by
an option-shaped token. -/
def c8wTokens : List (List Char) := [pathTok, showTok]

/-- Valid-name set for the C3 counterexample: a valid name that begins
with the section-open marker (the claim's hypotheses do not exclude it:
it is non-empty, colon-free and newline-free). -/
def brName : List Char := "[x".data

def c3valid : List (List Char) := [brName]

/-- Buffer for the C10 concrete instance: a second header directly after
the options of the first section, no separating blank line, no final
blank line. -/
def c10buf : List Char := "[a]\nfile_type:cmake\nproj:demo\n[b]\nproj:demo2\n".data

/-- Buffer for the C9 witness: a blank line before any section. -/
def c9buf : List Char := "\n".data

/-- Decidable equality for `Except`, for evaluating reader results. -/
instance {ε α : Type} [DecidableEq ε] [DecidableEq α] : DecidableEq (Except ε α) := fun a b =>
  match a, b with
  | Except.ok x, Except.ok y =>
    if h : x = y then isTrue (by rw [h]) else isFalse (by intro hh; cases hh; exact h rfl)
  | Except.error x, Except.error y =>
    if h : x = y then isTrue (by rw [h]) else isFalse (by intro hh; cases hh; exact h rfl)
  | Except.ok _, Except.error _ => isFalse (fun hh => Except.noConfusion hh)
  | Except.error _, Except.ok _ => isFalse (fun hh => Except.noConfusion hh)

instance (v : List (List Char)) (p : ArgPair) : Decidable (WFPair v p) := by
  unfold WFPair; infer_instance

instance (v : List (List Char)) (c : ArgCache) : Decidable (WFCache v c) := by
  unfold WFCache; infer_instance

theorem splitColon_append (a b : List Char) (h : ':' ∉ a) :
    splitColon (a ++ ':' :: b) = some (a, b) := by
  induction a with
  | nil => simp [splitColon]
  | cons c a ih =>
    have hc : c ≠ ':' := fun hc => h (hc ▸ List.mem_cons_self c a)
    have ha : ':' ∉ a := fun hm => h (List.mem_cons_of_mem c hm)
    simp [splitColon, hc, ih ha]

theorem append_cons_ne_nil (a b : List Char) (c : Char) : a ++ c :: b ≠ [] := by
  cases a <;> simp

/-- A line of the shape `name ++ ':' ++ content` with a well-behaved name
reaches the valid-name lookup of `parse_line`. -/
theorem parse_line_split (valid : List (List Char)) (n : Nat) (name content : List Char)
    (h1 : name ≠ []) (h2 : name.head? ≠ some '[') (h3 : ':' ∉ name) (h4 : content ≠ []) :
    parse_line valid n (name ++ ':' :: content) = classifyArg valid n name content := by
  obtain ⟨a, ar, rfl⟩ := List.exists_cons_of_ne_nil h1
  obtain ⟨c, cr, rfl⟩ := List.exists_cons_of_ne_nil h4
  have hsc : splitColon (a :: ar ++ ':' :: (c :: cr)) = some (a :: ar, c :: cr) :=
    splitColon_append _ _ h3
  simp only [List.head?_cons] at h2
  simp only [parse_line, List.cons_append, List.head?_cons]
  rw [if_neg (by simpa using h2)]
  rw [show a :: (ar ++ ':' :: (c :: cr)) = a :: ar ++ ':' :: (c :: cr) from rfl, hsc]

theorem classifyArg_item (valid : List (List Char)) (n : Nat) (name content : List Char)
    (hmem : name ∈ valid) (hs : name ≠ saveAsName) (hu : name ≠ useName) :
    classifyArg valid n name content = LineResult.ArgItem name content := by
  simp [classifyArg, hmem, hs, hu]

/-- Claim C3 (amended): for every line `name:content` whose name is
non-empty, colon-free, does not begin with `[`, is in the valid-name set
and is none of the reserved names, and whose content is non-empty, the
line parser returns exactly that name and, verbatim, everything after
the first colon as the content. -/
theorem c3_option_item (valid : List (List Char)) (n : Nat) (name content : List Char)
    (h1 : name ≠ []) (h2 : name.head? ≠ some '[') (h3 : ':' ∉ name)
    (hmem : name ∈ valid) (hs : name ≠ saveAsName) (hu : name ≠ useName)
    (_hf : name ≠ fileTypeName) (h4 : content ≠ []) :
    parse_line valid n (name ++ ':' :: content) = LineResult.ArgItem name content := by
  rw [parse_line_split valid n name content h1 h2 h3 h4]
  exact classifyArg_item valid n name content hmem hs hu

/-- Claim C3 counterexample: the name `[x` is non-empty, in the valid
set and reserved for nothing, and the content `c` is non-empty, yet the
line `[x:c` is not parsed as the pair (`[x`, `c`): its first character
makes it a section-header candidate and the parse fails with
`Missing ]`. -/
theorem c3_counterexample :
    parse_line c3valid 0 (brName ++ ':' :: cVal)
      = LineResult.ParseError (lineErr missingBracketMsg 0)
    ∧ parse_line c3valid 0 (brName ++ ':' :: cVal) ≠ LineResult.ArgItem brName cVal := by
  decide

theorem c3_option_item_witness :
    parse_line c1valid 0 (projName ++ ':' :: demoVal) = LineResult.ArgItem projName demoVal :=
  c3_option_item c1valid 0 projName demoVal (by decide) (by decide) (by decide)
    (by decide) (by decide) (by decide) (by decide) (by decide)

/-- Claim C4: on the schema `{version: required, main-lang: default cxx,
show: flag}` the matcher consumes `--version 3.10 --show` into the state
`c4after` (version mapped to `3.10`, show to the true marker, main-lang
absent), and `assert_required_args_exist` then succeeds and fills in
main-lang with its default `cxx`. -/
theorem c4_concrete :
    CommandArg.process_arg_impl c45cmd c4tokens = Except.ok c4after
    ∧ mapLookup c4after.arg_map versionName = some verVal
    ∧ mapLookup c4after.arg_map showName = some trueMarker
    ∧ mapLookup c4after.arg_map mainLangName = none
    ∧ (CommandArg.assert_required_args_exist c4after).2 = none
    ∧ mapLookup (CommandArg.assert_required_args_exist c4after).1.arg_map mainLangName
        = some cxxVal := by decide

theorem parse_line_nil_not_header (valid : List (List Char)) (idx : Nat) (n : List Char) :
    parse_line valid idx [] ≠ LineResult.CacheName n := by
  simp only [parse_line, List.head?_nil, splitColon, classifyArg]
  split_ifs <;> simp_all

/-- Claim C10: a header line read while inside a section only replaces
the accumulating bundle's cache name, keeping its option pairs and file
type and committing nothing; concretely, two headers not separated by a
blank line yield one bundle with the second name and the options of both
sections. -/
theorem c10_header_while_parsing :
    (∀ (valid : List (List Char)) (idx : Nat) (line n : List Char) (cur : ArgCache)
      (acc : List ArgCache) (rest : List (List Char)),
      parse_line valid idx line = LineResult.CacheName n →
      readLines valid idx cur true acc (line :: rest)
        = readLines valid (idx + 1) { cur with cache_name := n } true acc rest)
    ∧ read_from_config [projName] c10buf
        = Except.ok [⟨FileType.CMake, bName, [⟨projName, demoVal⟩, ⟨projName, demo2Val⟩]⟩] := by
  constructor
  · intro valid idx line n cur acc rest h
    have hne : line ≠ [] := by
      intro hl
      exact parse_line_nil_not_header valid idx n (hl ▸ h)
    simp only [readLines]
    rw [if_neg (by simp [hne]), h]
  · decide

theorem c10_header_while_parsing_witness :
    readLines [projName] 3 ⟨FileType.CMake, aName, [⟨projName, demoVal⟩]⟩ true []
        (('[' :: (bName ++ [']'])) :: [])
      = readLines [projName] 4 ⟨FileType.CMake, bName, [⟨projName, demoVal⟩]⟩ true [] [] :=
  c10_header_while_parsing.1 [projName] 3 ('[' :: (bName ++ [']'])) bName
    ⟨FileType.CMake, aName, [⟨projName, demoVal⟩]⟩ [] [] (by decide)

/-- Claim C6: a section terminator (blank line or end of input) reached
with the file type still unresolved fails with the file-type-not-
specified error naming the cache, whatever options the section holds;
end of input inside a section behaves exactly like a terminating blank
line, so a final section without a trailing blank line is committed. -/
theorem c6_section_terminator (valid : List (List Char)) (idx : Nat) (cur : ArgCache)
    (acc : List ArgCache) (rest : List (List Char)) :
    (cur.file_type = FileType.Unknown →
      readLines valid idx cur true acc ([] :: rest) = Except.error (ftNotSpecified cur.cache_name)
      ∧ readLines valid idx cur true acc [] = Except.error (ftNotSpecified cur.cache_name))
    ∧ (cur.file_type ≠ FileType.Unknown →
      readLines valid idx cur true acc [] = Except.ok (acc ++ [cur]))
    ∧ readLines valid idx cur true acc [] = readLines valid idx cur true acc ([] :: []) := by
  refine ⟨fun h => ⟨by simp [readLines, h], by simp [readLines, h]⟩,
    fun h => by simp [readLines, h], ?_⟩
  by_cases h : cur.file_type = FileType.Unknown
  · simp [readLines, h]
  · simp [readLines, h]

theorem c6_section_terminator_witness :
    (readLines c1valid 2 ⟨FileType.Unknown, aName, [⟨projName, demoVal⟩]⟩ true [] ([] :: [])
        = Except.error (ftNotSpecified aName)
      ∧ readLines c1valid 2 ⟨FileType.Unknown, aName, [⟨projName, demoVal⟩]⟩ true [] []
        = Except.error (ftNotSpecified aName))
    ∧ readLines c1valid 2 ⟨FileType.CMake, aName, [⟨projName, demoVal⟩]⟩ true [] []
        = Except.ok [⟨FileType.CMake, aName, [⟨projName, demoVal⟩]⟩] :=
  ⟨(c6_section_terminator c1valid 2 ⟨FileType.Unknown, aName, [⟨projName, demoVal⟩]⟩ [] []).1
      (by decide),
   (c6_section_terminator c1valid 2 ⟨FileType.CMake, aName, [⟨projName, demoVal⟩]⟩ [] []).2.1
      (by decide)⟩

/-- Claim C9: a blank line met while not inside a section is handed to
the line parser and aborts the whole read with the invalid-empty-name
parse error; it is not skipped. -/
theorem c9_blank_line (valid : List (List Char)) (idx : Nat) (cur : ArgCache)
    (acc : List ArgCache) (rest : List (List Char)) (buf : List Char)
    (hv : [] ∉ valid) :
    readLines valid idx cur false acc ([] :: rest) = Except.error (invalidNameMsg [] idx)
    ∧ (rustLines buf = [] :: rest →
        read_from_config valid buf = Except.error (invalidNameMsg [] 0)) := by
  have hft : ([] : List Char) ≠ fileTypeName := by decide
  have hp : ∀ i, parse_line valid i [] = LineResult.ParseError (invalidNameMsg [] i) := by
    intro i
    simp [parse_line, splitColon, classifyArg, hv, hft]
  constructor
  · simp [readLines, hp idx]
  · intro hr
    rw [read_from_config, hr]
    simp [readLines, hp 0]

theorem c9_blank_line_witness :
    readLines [versionName] 0 ArgCache.new false [] ([] :: []) = Except.error (invalidNameMsg [] 0)
    ∧ read_from_config [versionName] c9buf = Except.error (invalidNameMsg [] 0) :=
  ⟨(c9_blank_line [versionName] 0 ArgCache.new [] [] c9buf (by decide)).1,
   (c9_blank_line [versionName] 0 ArgCache.new [] [] c9buf (by decide)).2 (by decide)⟩

theorem mapLookup_append_left (m l : List (List Char × List Char)) (k v : List Char)
    (h : mapLookup m k = some v) : mapLookup (m ++ l) k = some v := by
  induction m with
  | nil => simp [mapLookup] at h
  | cons kv m ih =>
    rw [mapLookup] at h
    rw [List.cons_append, mapLookup]
    split_ifs at h ⊢ with hk
    · exact h
    · exact ih h

theorem orInsert_preserves (m : List (List Char × List Char)) (k v a ct : List Char)
    (h : mapLookup m k = some v) : mapLookup (orInsert m a ct) k = some v := by
  rw [orInsert]
  cases hm : mapLookup m a with
  | some w => exact h
  | none => exact mapLookup_append_left m [(a, ct)] k v h

theorem mapLookup_append_absent (k v : List Char) :
    ∀ m : List (List Char × List Char),
    mapLookup m k = none → mapLookup (m ++ [(k, v)]) k = some v := by
  intro m
  induction m with
  | nil => intro _; simp [mapLookup]
  | cons kv m ih =>
    intro h
    obtain ⟨k', v'⟩ := kv
    rw [mapLookup] at h
    by_cases hk : k' = k
    · rw [if_pos hk] at h
      exact absurd h (by simp)
    · rw [if_neg hk] at h
      rw [List.cons_append, mapLookup, if_neg hk]
      exact ih h

theorem orInsert_absent (m : List (List Char × List Char)) (k v : List Char)
    (h : mapLookup m k = none) : mapLookup (orInsert m k v) k = some v := by
  rw [orInsert, h]
  exact mapLookup_append_absent k v m h

theorem mapInsert_preserves_ne (m : List (List Char × List Char)) (k k' v' : List Char)
    (hne : k' ≠ k) : mapLookup (mapInsert m k' v') k = mapLookup m k := by
  induction m with
  | nil => simp [mapInsert, mapLookup, hne]
  | cons kv m ih =>
    rw [mapInsert]
    split_ifs with hk
    · rw [mapLookup, if_neg hne, mapLookup, if_neg (hk ▸ hne)]
    · rw [mapLookup, mapLookup, ih]

theorem assertLoop_preserves (k v : List Char) :
    ∀ (gs : List ArgGroup) (m : List (List Char × List Char)) (miss : Bool) (msg : List Char),
    (∀ g ∈ gs, g.definition.name = k → g.found = true) →
    mapLookup m k = some v →
    mapLookup (assertLoop m miss msg gs).1 k = some v := by
  intro gs
  induction gs with
  | nil => intro m miss msg _ h; exact h
  | cons g gs ih =>
    intro m miss msg hg h
    have hgs : ∀ g' ∈ gs, g'.definition.name = k → g'.found = true :=
      fun g' hm => hg g' (List.mem_cons_of_mem g hm)
    rw [assertLoop]
    by_cases h1 : g.found = true
    · rw [if_pos h1]
      exact ih m miss msg hgs h
    · rw [if_neg h1]
      by_cases h2 : g.definition.is_required = true
      · rw [if_pos h2]
        exact ih m true _ hgs h
      · rw [if_neg h2]
        by_cases h3 : g.definition.has_default_value = true
        · rw [if_pos h3]
          have hne : g.definition.name ≠ k := by
            intro hk
            exact h1 (hg g (List.mem_cons_self g gs) hk)
          exact ih _ miss msg hgs (by rw [mapInsert_preserves_ne m k _ _ hne]; exact h)
        · rw [if_neg h3]
          exact ih m miss msg hgs h

/-- Claim C2 (amended): once a name has a value in the supplied-option
map, a cache merge through `insert_arg_if_absent` never changes it; and
default-filling in `assert_required_args_exist` never changes it
provided every registry entry bearing that name is marked as found
(which holds in every run of the program, whose registry defines each
name once).  Without that proviso the default fill uses an overwriting
insert — see the counterexample. -/
theorem c2_first_writer_wins (c : CommandArg) (k v : List Char)
    (hv : mapLookup c.arg_map k = some v) :
    (∀ a ct, mapLookup (CommandArg.insert_arg_if_absent c a ct).arg_map k = some v)
    ∧ ((∀ g ∈ c.groups, g.definition.name = k → g.found = true) →
      mapLookup (CommandArg.assert_required_args_exist c).1.arg_map k = some v) := by
  constructor
  · intro a ct
    exact orInsert_preserves c.arg_map k v a ct hv
  · intro hg
    exact assertLoop_preserves k v c.groups c.arg_map false [] hg hv

/-- Claim C2 counterexample: the source checks no name uniqueness at
definition time; with `x` defined twice (second entry carrying a default)
and `--x v` processed, only the first entry is marked found, and the
default fill of `assert_required_args_exist` overwrites the existing
value `v` with `d`. -/
theorem c2_counterexample :
    CommandArg.process_arg_impl c2cmd [xTok, vVal] = Except.ok c2mid
    ∧ mapLookup c2mid.arg_map xName = some vVal
    ∧ mapLookup (CommandArg.assert_required_args_exist c2mid).1.arg_map xName = some dVal
    ∧ dVal ≠ vVal := by decide

theorem c2_first_writer_wins_witness :
    mapLookup (CommandArg.insert_arg_if_absent c4after versionName dVal).arg_map versionName
        = some verVal
    ∧ mapLookup (CommandArg.assert_required_args_exist c4after).1.arg_map versionName
        = some verVal :=
  ⟨(c2_first_writer_wins c4after versionName verVal (by decide)).1 versionName dVal,
   (c2_first_writer_wins c4after versionName verVal (by decide)).2 (by decide)⟩

theorem processLoop_preserves (k v : List Char) :
    ∀ (ts : List (List Char)) (m : List (List Char × List Char)) (fa : Bool)
      (ar : List Char) (gs gs2 : List ArgGroup) (m2 : List (List Char × List Char)),
    mapLookup m k = some v →
    processLoop m fa ar gs ts = Except.ok (gs2, m2) →
    mapLookup m2 k = some v := by
  intro ts
  induction ts with
  | nil =>
    intro m fa ar gs gs2 m2 h hrun
    rw [processLoop] at hrun
    cases hrun
    exact h
  | cons t rest ih =>
    intro m fa ar gs gs2 m2 h hrun
    rw [processLoop] at hrun
    split_ifs at hrun with hfa
    · exact ih _ _ _ _ _ _ (orInsert_preserves m k v ar t h) hrun
    · cases hm : matchFirst gs t with
      | none => rw [hm] at hrun; exact absurd hrun (by simp)
      | some gd =>
        rw [hm] at hrun
        obtain ⟨gs', d⟩ := gd
        simp only at hrun
        split_ifs at hrun with hflag
        · exact ih _ _ _ _ _ _ (orInsert_preserves m k v d.name trueMarker h) hrun
        · exact ih _ _ _ _ _ _ h hrun

/-- Claim C8 (amended): when a token matches a non-flag entry whose name
has no value yet, the matcher stores the immediately following token,
verbatim, as that option's value — even when that token itself starts
with the option prefix; a repeated option keeps its first value (the
map insert is first-writer-wins), which is the one case the original
wording misses. -/
theorem c8_value_verbatim (map : List (List Char × List Char)) (arg_ref t v : List Char)
    (groups groups' gs2 : List ArgGroup) (d : Arg) (m2 : List (List Char × List Char))
    (rest : List (List Char))
    (hm : matchFirst groups t = some (groups', d))
    (hf : d.is_flag = false)
    (habs : mapLookup map d.name = none)
    (hrun : processLoop map false arg_ref groups (t :: v :: rest) = Except.ok (gs2, m2)) :
    mapLookup m2 d.name = some v := by
  rw [processLoop] at hrun
  rw [if_neg (by simp), hm] at hrun
  simp only [hf, if_neg Bool.false_ne_true] at hrun
  rw [processLoop, if_pos rfl] at hrun
  exact processLoop_preserves d.name v rest _ false d.name groups' gs2 m2
    (orInsert_absent map d.name v habs) hrun

/-- Claim C8 counterexample: with `path` already holding the value `a`,
a second `--path` followed by `--show` does not store `--show`: the
value of `path` stays `a`. -/
theorem c8_counterexample :
    CommandArg.process_arg_impl c8cmd c8tokens = Except.ok c8after
    ∧ mapLookup c8after.arg_map pathName = some aName
    ∧ mapLookup c8after.arg_map pathName ≠ some showTok := by decide

theorem c8_value_verbatim_witness :
    mapLookup [(pathName, showTok)] (Arg.new pathName).name = some showTok :=
  c8_value_verbatim [] [] pathTok showTok c8groups [⟨Arg.new pathName, true⟩]
    [⟨Arg.new pathName, true⟩] (Arg.new pathName) [(pathName, showTok)] []
    (by decide) (by decide) (by decide) (by decide)

theorem assertLoop_spec (gs : List ArgGroup) :
    ∀ (m : List (List Char × List Char)) (miss : Bool) (msg : List Char),
    (assertLoop m miss msg gs).2.1 = (miss || !(missingOf gs).isEmpty)
    ∧ (assertLoop m miss msg gs).2.2
        = msg ++ (if miss = true
                  then ((missingOf gs).map (fun nn => commaSep ++ nn)).flatten
                  else joinComma (missingOf gs)) := by
  induction gs with
  | nil =>
    intro m miss msg
    cases miss <;> simp [assertLoop, missingOf, joinComma]
  | cons g gs ih =>
    intro m miss msg
    rw [assertLoop]
    by_cases h1 : g.found = true
    · rw [if_pos h1]
      have hm : missingOf (g :: gs) = missingOf gs := by
        simp [missingOf, List.filter_cons, h1]
      rw [hm]
      exact ih m miss msg
    · rw [if_neg h1]
      have hb : g.found = false := by
        simpa using h1
      by_cases h2 : g.definition.is_required = true
      · rw [if_pos h2]
        have hm : missingOf (g :: gs) = g.definition.name :: missingOf gs := by
          simp [missingOf, List.filter_cons, hb, h2]
        rw [hm]
        obtain ⟨ih1, ih2⟩ :=
          ih m true ((if miss then msg ++ commaSep else msg) ++ g.definition.name)
        cases miss
        · refine ⟨by rw [ih1]; simp, ?_⟩
          rw [ih2]
          simp [joinComma, List.append_assoc]
        · refine ⟨by rw [ih1]; simp, ?_⟩
          rw [ih2]
          simp [List.append_assoc]
      · rw [if_neg h2]
        have hm : missingOf (g :: gs) = missingOf gs := by
          simp [missingOf, List.filter_cons, h2]
        by_cases h3 : g.definition.has_default_value = true
        · rw [if_pos h3, hm]
          exact ih _ miss msg
        · rw [if_neg h3, hm]
          exact ih m miss msg

/-- Claim C5: `assert_required_args_exist` errs exactly when some
required entry is unsupplied, and the single error then carries the
names of all required-but-unsupplied entries, comma-joined, in
iteration (precedence) order; concretely, with the C4/C5 schema and only
`--show` supplied it fails with the message `version`. -/
theorem c5_missing_required :
    (∀ c : CommandArg,
      ((CommandArg.assert_required_args_exist c).2 = none
        ↔ ¬ ∃ g ∈ c.groups, g.definition.is_required = true ∧ g.found = false)
      ∧ (CommandArg.assert_required_args_exist c).2
          = (if missingOf c.groups = [] then none
             else some (ArgProcessErr.MissingArg (joinComma (missingOf c.groups)))))
    ∧ (CommandArg.process_arg_impl c45cmd [showTok] = Except.ok c5after
      ∧ (CommandArg.assert_required_args_exist c5after).2
          = some (ArgProcessErr.MissingArg versionName)) := by
  constructor
  · intro c
    obtain ⟨h1, h2⟩ := assertLoop_spec c.groups c.arg_map false []
    have heq : (CommandArg.assert_required_args_exist c).2
        = (if missingOf c.groups = [] then none
           else some (ArgProcessErr.MissingArg (joinComma (missingOf c.groups)))) := by
      rw [CommandArg.assert_required_args_exist]
      simp only [h1, h2, Bool.false_or, List.nil_append, Bool.false_eq_true, if_false]
      cases hL : missingOf c.groups with
      | nil => simp
      | cons x xs => simp
    refine ⟨?_, heq⟩
    have hchar : missingOf c.groups = []
        ↔ ¬ ∃ g ∈ c.groups, g.definition.is_required = true ∧ g.found = false := by
      simp only [missingOf, List.map_eq_nil_iff, List.filter_eq_nil_iff, not_exists]
      constructor
      · rintro hall g ⟨hg, hreq, hfound⟩
        have := hall g hg
        simp [hfound, hreq] at this
      · intro hnone g hg
        intro hb
        simp only [Bool.and_eq_true, Bool.not_eq_true'] at hb
        exact hnone g ⟨hg, hb.2, hb.1⟩
    rw [heq]
    by_cases hmL : missingOf c.groups = []
    · rw [if_pos hmL]
      simpa using hchar.1 hmL
    · rw [if_neg hmL]
      constructor
      · intro hsome
        exact absurd hsome (by simp)
      · intro hne
        exact absurd (hchar.2 hne) hmL
  · exact ⟨by decide, by decide⟩

theorem classifyArg_item_inv (valid : List (List Char)) (n : Nat)
    (arg content a ct : List Char)
    (h : classifyArg valid n arg content = LineResult.ArgItem a ct) :
    a ≠ saveAsName ∧ a ≠ useName := by
  rw [classifyArg] at h
  by_cases h1 : arg ∈ valid
  · rw [if_pos h1] at h
    by_cases h2 : arg = saveAsName ∨ arg = useName
    · rw [if_pos h2] at h
      exact absurd h (by simp)
    · rw [if_neg h2] at h
      push_neg at h2
      simp only [LineResult.ArgItem.injEq] at h
      obtain ⟨rfl, rfl⟩ := h
      exact h2
  · rw [if_neg h1] at h
    by_cases h3 : arg = fileTypeName
    · rw [if_pos h3] at h
      exact absurd h (by simp)
    · rw [if_neg h3] at h
      exact absurd h (by simp)

theorem parse_line_item_inv (valid : List (List Char)) (n : Nat) (line a ct : List Char)
    (h : parse_line valid n line = LineResult.ArgItem a ct) :
    a ≠ saveAsName ∧ a ≠ useName := by
  rw [parse_line] at h
  by_cases hh : line.head? = some '['
  · rw [if_pos hh, parseHeader] at h
    by_cases hl : line.tail.getLast? = some ']'
    · rw [if_pos hl] at h
      by_cases hd : line.tail.dropLast = []
      · rw [if_pos hd] at h
        exact absurd h (by simp)
      · rw [if_neg hd] at h
        exact absurd h (by simp)
    · rw [if_neg hl] at h
      exact absurd h (by simp)
  · rw [if_neg hh] at h
    rcases hsc : splitColon line with _ | ⟨x, y⟩
    · rw [hsc] at h
      exact classifyArg_item_inv valid n [] line a ct h
    · rw [hsc] at h
      rcases x with _ | ⟨x0, xr⟩
      · exact absurd h (by simp)
      · rcases y with _ | ⟨y0, yr⟩
        · exact absurd h (by simp)
        · exact classifyArg_item_inv valid n (x0 :: xr) (y0 :: yr) a ct h

theorem readLines_no_meta :
    ∀ (ls : List (List Char)) (valid : List (List Char)) (idx : Nat) (cur : ArgCache)
      (parsing : Bool) (acc caches : List ArgCache),
    (∀ c ∈ acc, ∀ p ∈ c.args, p.arg ≠ saveAsName ∧ p.arg ≠ useName) →
    (∀ p ∈ cur.args, p.arg ≠ saveAsName ∧ p.arg ≠ useName) →
    readLines valid idx cur parsing acc ls = Except.ok caches →
    ∀ c ∈ caches, ∀ p ∈ c.args, p.arg ≠ saveAsName ∧ p.arg ≠ useName := by
  intro ls
  induction ls with
  | nil =>
    intro valid idx cur parsing acc caches hacc hcur hrun
    rw [readLines] at hrun
    by_cases hp : parsing = true
    · rw [if_pos hp] at hrun
      by_cases hft : cur.file_type = FileType.Unknown
      · rw [if_pos hft] at hrun
        exact absurd hrun (by simp)
      · rw [if_neg hft] at hrun
        have hc2 : acc ++ [cur] = caches := by simpa using hrun
        subst hc2
        intro c hc
        rcases List.mem_append.1 hc with h | h
        · exact hacc c h
        · rw [List.mem_singleton] at h
          subst h
          exact hcur
    · rw [if_neg hp] at hrun
      have hc2 : acc = caches := by simpa using hrun
      subst hc2
      exact hacc
  | cons line rest ih =>
    intro valid idx cur parsing acc caches hacc hcur hrun
    rw [readLines] at hrun
    by_cases hb : line = [] ∧ parsing = true
    · rw [if_pos hb] at hrun
      by_cases hft : cur.file_type = FileType.Unknown
      · rw [if_pos hft] at hrun
        exact absurd hrun (by simp)
      · rw [if_neg hft] at hrun
        refine ih valid (idx + 1) ArgCache.new false (acc ++ [cur]) caches ?_ ?_ hrun
        · intro c hc
          rcases List.mem_append.1 hc with h | h
          · exact hacc c h
          · rw [List.mem_singleton] at h
            subst h
            exact hcur
        · intro p hp
          simp [ArgCache.new] at hp
    · rw [if_neg hb] at hrun
      cases hpl : parse_line valid idx line with
      | CacheName n =>
        rw [hpl] at hrun
        exact ih valid (idx + 1) _ true acc caches hacc (by simpa using hcur) hrun
      | FileTy ty =>
        simp only [hpl] at hrun
        by_cases hty : ty = FileType.Unknown
        · rw [if_pos hty] at hrun
          exact absurd hrun (by simp)
        · rw [if_neg hty] at hrun
          exact ih valid (idx + 1) _ parsing acc caches hacc (by simpa using hcur) hrun
      | ArgItem a ct =>
        simp only [hpl] at hrun
        by_cases hps : parsing = true
        · rw [if_pos hps] at hrun
          refine ih valid (idx + 1) _ parsing acc caches hacc ?_ hrun
          intro p hp
          simp only at hp
          rcases List.mem_append.1 hp with h | h
          · exact hcur p h
          · rw [List.mem_singleton] at h
            subst h
            exact parse_line_item_inv valid idx line a ct hpl
        · rw [if_neg hps] at hrun
          exact absurd hrun (by simp)
      | ParseError e =>
        rw [hpl] at hrun
        exact absurd hrun (by simp)
      | Discard =>
        rw [hpl] at hrun
        exact ih valid (idx + 1) cur parsing acc caches hacc hcur hrun

/-- Claim C7 (amended): the line parser discards `save-as`/`use` option
lines (for names in the valid set), so bundles produced by the cache
reader never contain those pairs; the bundle built by the save path,
however, copies the whole supplied-option map and so does persist the
`save-as`/`use` pairs themselves — see the counterexample. -/
theorem c7_metadata :
    (∀ (valid : List (List Char)) (n : Nat) (content : List Char), content ≠ [] →
      (saveAsName ∈ valid →
        parse_line valid n (saveAsName ++ ':' :: content) = LineResult.Discard)
      ∧ (useName ∈ valid →
        parse_line valid n (useName ++ ':' :: content) = LineResult.Discard))
    ∧ (∀ (valid : List (List Char)) (buf : List Char) (caches : List ArgCache),
        read_from_config valid buf = Except.ok caches →
        ∀ c ∈ caches, ∀ p ∈ c.args, p.arg ≠ saveAsName ∧ p.arg ≠ useName) := by
  constructor
  · intro valid n content hc
    constructor
    · intro hmem
      rw [parse_line_split valid n saveAsName content (by decide) (by decide) (by decide) hc]
      simp [classifyArg, hmem]
    · intro hmem
      rw [parse_line_split valid n useName content (by decide) (by decide) (by decide) hc]
      simp [classifyArg, hmem]
  · intro valid buf caches hrun
    exact readLines_no_meta (rustLines buf) valid 0 ArgCache.new false [] caches
      (by intro c hc; simp at hc) (by intro p hp; simp [ArgCache.new] at hp) hrun

/-- Claim C7 counterexample: processing `--save-as foo --use old` puts
both metadata pairs into the supplied-option map, and the bundle the
save path builds from that map carries them, so they are persisted. -/
theorem c7_counterexample :
    CommandArg.process_arg_impl c7cmd c7tokens = Except.ok c7mid
    ∧ write_arg_cache_bundle c7mid
        = some ⟨FileType.CMake, fooVal, [⟨saveAsName, fooVal⟩, ⟨useName, oldVal⟩]⟩ := by
  exact ⟨by decide, by decide⟩

theorem getLast?_append_right (l m : List Char) (h : m ≠ []) :
    (l ++ m).getLast? = m.getLast? := by
  rw [List.getLast?_append]
  cases hm : m.getLast? with
  | none => exact absurd (List.getLast?_eq_none_iff.1 hm) h
  | some x => rfl

theorem splitOnNl_append (t : List Char) :
    ∀ l : List Char, '\n' ∉ l → splitOnNl (l ++ '\n' :: t) = l :: splitOnNl t := by
  intro l
  induction l with
  | nil => intro _; simp [splitOnNl]
  | cons c l ih =>
    intro h
    have hc : c ≠ '\n' := fun hc => h (hc ▸ List.mem_cons_self c l)
    have hl : '\n' ∉ l := fun hm => h (List.mem_cons_of_mem c hm)
    rw [List.cons_append, splitOnNl, if_neg hc, ih hl]
    simp

theorem splitOnNl_joinNl :
    ∀ ls : List (List Char), (∀ l ∈ ls, '\n' ∉ l) →
    splitOnNl (joinNl ls) = ls ++ [[]] := by
  intro ls
  induction ls with
  | nil => intro _; simp [joinNl, splitOnNl]
  | cons l ls ih =>
    intro h
    have h1 : '\n' ∉ l := h l (List.mem_cons_self l ls)
    have h2 : ∀ x ∈ ls, '\n' ∉ x := fun x hx => h x (List.mem_cons_of_mem l hx)
    have hj : joinNl (l :: ls) = l ++ '\n' :: joinNl ls := by
      simp [joinNl, lineEnd]
    rw [hj, splitOnNl_append _ l h1, ih h2]
    rfl

theorem stripCR_id (l : List Char) (h : l.getLast? ≠ some '\r') : stripCR l = l := by
  rw [stripCR, if_neg h]

theorem rustLines_joinNl (ls : List (List Char)) (h1 : ∀ l ∈ ls, '\n' ∉ l)
    (h2 : ∀ l ∈ ls, l.getLast? ≠ some '\r') : rustLines (joinNl ls) = ls := by
  rw [rustLines, splitOnNl_joinNl ls h1]
  rw [if_pos (List.getLast?_concat ls), List.dropLast_concat]
  calc ls.map stripCR = ls.map id :=
        List.map_congr_left (fun a ha => stripCR_id a (h2 a ha))
    _ = ls := List.map_id ls

theorem joinNl_append (a b : List (List Char)) :
    joinNl (a ++ b) = joinNl a ++ joinNl b := by
  simp [joinNl, List.map_append, List.flatten_append]

theorem joinNl_cons (x : List Char) (xs : List (List Char)) :
    joinNl (x :: xs) = (x ++ lineEnd) ++ joinNl xs := by
  simp [joinNl]

theorem bundleText_eq (c : ArgCache) :
    '[' :: (c.cache_name ++ ']' :: lineEnd)
      ++ fileTypeName ++ ':' :: (FileType.to_str c.file_type ++ lineEnd)
      ++ (c.args.map (fun p => p.arg ++ ':' :: (p.content ++ lineEnd))).flatten
      ++ lineEnd
    = joinNl (bundleLines c) := by
  have hargs : (c.args.map (fun p => p.arg ++ ':' :: (p.content ++ lineEnd))).flatten
      = joinNl (c.args.map (fun p => p.arg ++ ':' :: p.content)) := by
    rw [joinNl, List.map_map]
    congr 1
    apply List.map_congr_left
    intro p _
    simp
  rw [bundleLines, joinNl_cons, joinNl_cons, joinNl_append, joinNl_cons, ← hargs]
  simp [joinNl, List.append_assoc]

theorem write_eq_joinNl (caches : List ArgCache) :
    write_to_config caches = joinNl ((caches.map bundleLines).flatten) := by
  induction caches with
  | nil => rfl
  | cons c cs ih =>
    simp only [write_to_config, List.map_cons, List.flatten_cons]
    rw [joinNl_append]
    simp only [write_to_config] at ih
    rw [← ih, ← bundleText_eq]

theorem bundleLines_wf (valid : List (List Char)) (c : ArgCache) (h : WFCache valid c) :
    ∀ l ∈ bundleLines c, '\n' ∉ l ∧ l.getLast? ≠ some '\r' := by
  obtain ⟨h1, h2, h3, h4, h5, h6⟩ := h
  intro l hl
  rw [bundleLines] at hl
  rcases List.mem_cons.1 hl with rfl | hl
  · constructor
    · intro hmem
      rcases List.mem_cons.1 hmem with hq | hq
      · exact absurd hq (by decide)
      · rcases List.mem_append.1 hq with hq | hq
        · exact h4 hq
        · rw [List.mem_singleton] at hq
          exact absurd hq (by decide)
    · rw [show ('[' :: (c.cache_name ++ [']'])) = ('[' :: c.cache_name) ++ [']'] from rfl]
      rw [List.getLast?_concat]
      simp
  · rcases List.mem_cons.1 hl with rfl | hl
    · cases hft : c.file_type with
      | Unknown => exact absurd hft h5
      | CMake => exact ⟨by decide, by decide⟩
    · rcases List.mem_append.1 hl with hl | hl
      · rw [List.mem_map] at hl
        obtain ⟨p, hp, rfl⟩ := hl
        obtain ⟨g1, g2, g3, g4, g5, g6, g7, g8, g9, g10, g11, g12⟩ := h6 p hp
        constructor
        · intro hmem
          rcases List.mem_append.1 hmem with hq | hq
          · exact g5 hq
          · rcases List.mem_cons.1 hq with hq | hq
            · exact absurd hq (by decide)
            · exact g11 hq
        · rw [getLast?_append_right p.arg (':' :: p.content) (by simp)]
          rw [show (':' :: p.content) = [':'] ++ p.content from rfl]
          rw [getLast?_append_right [':'] p.content g10]
          exact g12
      · rw [List.mem_singleton] at hl
        subst hl
        exact ⟨by simp, by simp⟩

theorem bundles_no_nl (valid : List (List Char)) (caches : List ArgCache)
    (h : ∀ c ∈ caches, WFCache valid c) :
    ∀ l ∈ (caches.map bundleLines).flatten, '\n' ∉ l := by
  intro l hl
  rw [List.mem_flatten] at hl
  obtain ⟨s, hs, hls⟩ := hl
  rw [List.mem_map] at hs
  obtain ⟨c, hc, rfl⟩ := hs
  exact (bundleLines_wf valid c (h c hc) l hls).1

theorem bundles_no_cr (valid : List (List Char)) (caches : List ArgCache)
    (h : ∀ c ∈ caches, WFCache valid c) :
    ∀ l ∈ (caches.map bundleLines).flatten, l.getLast? ≠ some '\r' := by
  intro l hl
  rw [List.mem_flatten] at hl
  obtain ⟨s, hs, hls⟩ := hl
  rw [List.mem_map] at hs
  obtain ⟨c, hc, rfl⟩ := hs
  exact (bundleLines_wf valid c (h c hc) l hls).2

theorem parse_header_line (valid : List (List Char)) (idx : Nat) (name : List Char)
    (h : name ≠ []) :
    parse_line valid idx ('[' :: (name ++ [']'])) = LineResult.CacheName name := by
  rw [parse_line, if_pos (by simp)]
  simp only [List.tail_cons]
  rw [parseHeader, if_pos (List.getLast?_concat name), List.dropLast_concat, if_neg h]

theorem match_type_to_str (ft : FileType) (h : ft ≠ FileType.Unknown) :
    FileType.match_type (FileType.to_str ft) = ft := by
  cases ft with
  | CMake => decide
  | Unknown => exact absurd rfl h

theorem parse_ft_line (valid : List (List Char)) (idx : Nat) (ft : FileType)
    (hv : fileTypeName ∉ valid) (h : ft ≠ FileType.Unknown) :
    parse_line valid idx (fileTypeName ++ ':' :: FileType.to_str ft)
      = LineResult.FileTy ft := by
  rw [parse_line_split valid idx fileTypeName (FileType.to_str ft) (by decide) (by decide)
      (by decide) (by cases ft <;> decide)]
  rw [classifyArg, if_neg hv, if_pos rfl, match_type_to_str ft h]

theorem readLines_args (valid : List (List Char)) :
    ∀ (pending : List ArgPair) (idx : Nat) (ty : FileType) (name : List Char)
      (done : List ArgPair) (acc : List ArgCache) (rest : List (List Char)),
    (∀ p ∈ pending, WFPair valid p) → ty ≠ FileType.Unknown →
    readLines valid idx ⟨ty, name, done⟩ true acc
        ((pending.map (fun p => p.arg ++ ':' :: p.content)) ++ [] :: rest)
      = readLines valid (idx + pending.length + 1) ArgCache.new false
          (acc ++ [⟨ty, name, done ++ pending⟩]) rest := by
  intro pending
  induction pending with
  | nil =>
    intro idx ty name done acc rest _ hty
    simp only [List.map_nil, List.nil_append, List.length_nil, List.append_nil, Nat.add_zero]
    rw [readLines, if_pos ⟨rfl, rfl⟩, if_neg hty]
  | cons p ps ih =>
    intro idx ty name done acc rest hp hty
    have hwf := hp p (List.mem_cons_self p ps)
    obtain ⟨g1, g2, g3, g4, g5, g6, g7, g8, g9, g10, g11, g12⟩ := hwf
    have hps : ∀ q ∈ ps, WFPair valid q := fun q hq => hp q (List.mem_cons_of_mem p hq)
    simp only [List.map_cons, List.cons_append]
    rw [readLines]
    rw [if_neg (fun hc => append_cons_ne_nil p.arg p.content ':' hc.1)]
    have hpl : parse_line valid idx (p.arg ++ ':' :: p.content)
        = LineResult.ArgItem p.arg p.content := by
      rw [parse_line_split valid idx p.arg p.content g1 g2 g4 g10]
      exact classifyArg_item valid idx p.arg p.content g6 g7 g8
    simp only [hpl]
    rw [if_pos trivial]
    have step := ih (idx + 1) ty name (done ++ [p]) acc rest hps hty
    rw [List.length_cons]
    rw [(by omega : idx + (ps.length + 1) + 1 = idx + 1 + ps.length + 1)]
    rw [(by simp : done ++ p :: ps = (done ++ [p]) ++ ps)]
    exact step

theorem readLines_bundle (valid : List (List Char)) (c : ArgCache) (idx : Nat)
    (acc : List ArgCache) (rest : List (List Char))
    (hv : fileTypeName ∉ valid) (h : WFCache valid c) :
    readLines valid idx ArgCache.new false acc (bundleLines c ++ rest)
      = readLines valid (idx + (c.args.length + 3)) ArgCache.new false (acc ++ [c]) rest := by
  obtain ⟨h1, h2, h3, h4, h5, h6⟩ := h
  simp only [bundleLines, List.cons_append, List.append_assoc, List.singleton_append]
  rw [readLines]
  rw [if_neg (fun hc => absurd hc.2 (by decide))]
  have hplh : parse_line valid idx ('[' :: (c.cache_name ++ [']']))
      = LineResult.CacheName c.cache_name := parse_header_line valid idx c.cache_name h1
  simp only [hplh]
  rw [readLines]
  rw [if_neg (fun hc => append_cons_ne_nil fileTypeName (FileType.to_str c.file_type) ':' hc.1)]
  have hplf : parse_line valid (idx + 1) (fileTypeName ++ ':' :: FileType.to_str c.file_type)
      = LineResult.FileTy c.file_type := parse_ft_line valid (idx + 1) c.file_type hv h5
  simp only [hplf]
  rw [if_neg h5]
  have step := readLines_args valid c.args (idx + 1 + 1) c.file_type c.cache_name [] acc rest h6 h5
  rw [(by omega : idx + (c.args.length + 3) = idx + 1 + 1 + c.args.length + 1)]
  exact step

theorem readLines_bundles (valid : List (List Char)) (hv : fileTypeName ∉ valid) :
    ∀ (caches : List ArgCache) (idx : Nat) (acc : List ArgCache),
    (∀ c ∈ caches, WFCache valid c) →
    readLines valid idx ArgCache.new false acc ((caches.map bundleLines).flatten)
      = Except.ok (acc ++ caches) := by
  intro caches
  induction caches with
  | nil =>
    intro idx acc _
    simp [readLines]
  | cons c cs ih =>
    intro idx acc h
    rw [List.map_cons, List.flatten_cons]
    rw [readLines_bundle valid c idx acc _ hv (h c (List.mem_cons_self c cs))]
    rw [ih (idx + (c.args.length + 3)) (acc ++ [c])
        (fun x hx => h x (List.mem_cons_of_mem c hx))]
    simp

/-- Claim C1 (amended): serializing a collection and re-parsing it with
the same valid-name set reproduces it, for collections whose cache names
are non-empty and free of `]`/`:`/newline, whose file types are known,
and whose option pairs have names that are non-empty, free of
`]`/`:`/newline, not starting with `[`, in the valid set and none of the
reserved names, and contents that are non-empty, newline-free and not
ending in a carriage return, provided `file_type` itself is not in the
valid set.  The non-emptiness, leading-`[`, trailing-`'\r'` and
`file_type`-membership conditions are forced by the counterexample and
its variants; the rest is the claim's own well-formedness hypothesis. -/
theorem c1_round_trip (valid : List (List Char)) (caches : List ArgCache)
    (hv : fileTypeName ∉ valid) (h : ∀ c ∈ caches, WFCache valid c) :
    read_from_config valid (write_to_config caches) = Except.ok caches := by
  rw [read_from_config, write_eq_joinNl]
  rw [rustLines_joinNl _ (bundles_no_nl valid caches h) (bundles_no_cr valid caches h)]
  rw [readLines_bundles valid hv caches 0 [] h]
  simp

/-- Claim C1 counterexample: a collection whose single bundle has an
option pair with empty content satisfies every hypothesis the claim
states (no `]`/`:`/newline anywhere, valid non-reserved name, known file
type), yet the written text `proj:` re-parses as the hard error
`Having empty argument content`, not as the collection. -/
theorem c1_counterexample :
    read_from_config c1valid (write_to_config c1caches)
      = Except.error (lineErr emptyContentMsg 2)
    ∧ read_from_config c1valid (write_to_config c1caches) ≠ Except.ok c1caches := by
  exact ⟨by decide, by decide⟩

theorem c1_round_trip_witness :
    (fileTypeName ∉ wValid ∧ ∀ c ∈ wCaches, WFCache wValid c)
    ∧ read_from_config wValid (write_to_config wCaches) = Except.ok wCaches :=
  ⟨⟨by decide, by decide⟩, c1_round_trip wValid wCaches (by decide) (by decide)⟩

theorem c7_metadata_witness :
    parse_line [saveAsName] 0 (saveAsName ++ ':' :: demoVal) = LineResult.Discard
    ∧ (projName ≠ saveAsName ∧ projName ≠ useName) :=
  ⟨(c7_metadata.1 [saveAsName] 0 demoVal (by decide)).1 (by decide),
   c7_metadata.2 [projName] c10buf
     [⟨FileType.CMake, bName, [⟨projName, demoVal⟩, ⟨projName, demo2Val⟩]⟩] (by decide)
     ⟨FileType.CMake, bName, [⟨projName, demoVal⟩, ⟨projName, demo2Val⟩]⟩ (by decide)
     ⟨projName, demoVal⟩ (by decide)⟩

end Filetemp
